import Mathlib

/-!
Shallow embedding of `src/shap/plots/_heatmap.py` (the `heatmap` function's
data-preparation pipeline, lines 42-104) over rational-valued matrices
represented as lists of rows.  Machine floats are modelled by `ℚ`; the
non-finite result of a float division by zero is modelled by `Option`
(`none` = the NaN-valued overlay the code produces there).
-/

namespace Heatmap

/-- Errors the pipeline can signal.  `unsupportedOrderingSpec`,
`nameErrorOrderValues`, `indexError`, `broadcastError` and
`negativeDimensionError` embed the exceptions the Python code actually
raises (a generic `Exception`, `UnboundLocalError`, numpy's `IndexError`
and `ValueError`s).  `shapeMismatch` and `invalidDisplayCount` are
modelled from the spec: the spec names these error signals but no code in
`src/` produces them; they are included so statements can compare the
code's behaviour against the spec's claimed signals. -/
inductive HeatmapError where
  | unsupportedOrderingSpec (axis : String)
  | nameErrorOrderValues
  | indexError
  | broadcastError
  | negativeDimensionError
  | shapeMismatch (axis : String) (expected actual : Nat)
  | invalidDisplayCount
  deriving Repr, DecidableEq

/-- Modelled from the spec: the per-axis ordering specification of §3/§9,
`OrderingSpec = Strategy(fn) | ExplicitPermutation(indices)`, plus the
"any other input" shape (a scalar with no length).  The `shap.order`
module that realises strategies is not part of `src/`; the heatmap code
distinguishes the three shapes by `type(x) == type(order)` /
`hasattr(x, "__len__")`, which this tagged variant embeds.  A strategy is
a pure function of the matrix and the axis returning a permutation and
per-element scores (`apply(values, axis, return_values=True)`); for the
sample axis only the permutation component is used. -/
inductive OrderingSpec where
  | strategy (f : List (List ℚ) → Nat → List Nat × List ℚ)
  | explicitPerm (p : List Nat)
  | scalar (x : ℚ)

/-- The feature-axis length `values.shape[1]`: the number of feature
columns (length of the first row; the numpy array is rectangular). -/
def numCols (values : List (List ℚ)) : Nat :=
  values.headI.length

/-- numpy fancy indexing `a[idx]` with an integer index list: selects the
given positions, raising `IndexError` when an index is out of range. -/
def npFancyIndex (l : List α) (idx : List Nat) : Except HeatmapError (List α) :=
  idx.mapM (fun i => if h : i < l.length then .ok (l.get ⟨i, h⟩) else .error .indexError)

/-- Length of the Python slice `x[:stop]` on an axis of length `len`
(negative `stop` counts from the end, result clamped to `[0, len]`). -/
def pyStopLen (len : Nat) (stop : Int) : Nat :=
  (max 0 (min (len : Int) (if stop < 0 then (len : Int) + stop else stop))).toNat

/-- Python slice `x[:stop]`. -/
def pySliceTo (l : List α) (stop : Int) : List α :=
  l.take (pyStopLen l.length stop)

/-- Python slice `x[start:]`. -/
def pySliceFrom (l : List α) (start : Int) : List α :=
  l.drop ((max 0 (if start < 0 then (l.length : Int) + start else start)).toNat)

/-- Resolve a (possibly negative) numpy index against an axis of length
`len`, raising `IndexError` when out of range. -/
def npResolveIndex (len : Nat) (idx : Int) : Except HeatmapError Nat :=
  let i : Int := if idx < 0 then (len : Int) + idx else idx
  if 0 ≤ i ∧ i < (len : Int) then .ok i.toNat else .error .indexError

/-- The collapse step, `_heatmap.py` lines 57-67.  When
`values.shape[1] > max_display` the code builds
`new_values = np.zeros((n, max_display))`, copies columns
`:max_display-1`, writes the tail sums into column `max_display-1`, does
the same for `order_values`, truncates `feature_names` to `max_display`
entries and overwrites the last with `"<k> other features"`.  The numpy
error conditions (negative dimension in `np.zeros`, broadcastable shape
check of the slice assignment, index resolution of column
`max_display-1`, `list[-1]` assignment on the label list) are embedded
explicitly so that `max_display < 1` behaves as the code does. -/
def collapse (values : List (List ℚ)) (featureNames : List String)
    (orderValues : List ℚ) (maxDisplay : Int) :
    Except HeatmapError (List (List ℚ) × List String × List ℚ) :=
  let m := numCols values
  if (m : Int) > maxDisplay then
    if maxDisplay < 0 then .error .negativeDimensionError
    else
      let k := maxDisplay.toNat
      -- new_values[:, :max_display-1] = values[:, :max_display-1]
      let t := pyStopLen k (maxDisplay - 1)
      let srcW := pyStopLen m (maxDisplay - 1)
      if srcW ≠ t ∧ srcW ≠ 1 then .error .broadcastError
      else
        -- new_values[:, max_display-1] = values[:, max_display-1:].sum(1)
        match npResolveIndex k (maxDisplay - 1) with
        | .error e => .error e
        | .ok j =>
          let newValues := values.map (fun row =>
            ((row.take t) ++ List.replicate (k - t) (0 : ℚ)).set j
              (pySliceFrom row (maxDisplay - 1)).sum)
          let newOrderValues :=
            ((orderValues.take t) ++ List.replicate (k - t) (0 : ℚ)).set j
              (pySliceFrom orderValues (maxDisplay - 1)).sum
          -- feature_names = list(feature_names[:max_display]); feature_names[-1] = ...
          let truncated := pySliceTo featureNames maxDisplay
          if truncated.isEmpty then .error .indexError
          else
            let newNames := truncated.dropLast ++
              [toString ((m : Int) - maxDisplay + 1) ++ " other features"]
            .ok (newValues, newNames, newOrderValues)
  else
    .ok (values, featureNames, orderValues)

/-- Linear interpolation of a sorted sample list `s` at fractional rank
`h`: the value `s[⌊h⌋] + (h - ⌊h⌋) * (s[⌊h⌋+1] - s[⌊h⌋])` used by
numpy's default percentile interpolation (the upper neighbour falls back
to the lower one at the right edge, where its weight is zero). -/
def interpAt (s : List ℚ) (h : ℚ) : ℚ :=
  let i : Nat := ⌊h⌋.toNat
  let lo := s.getD i 0
  let hi := s.getD (i + 1) lo
  lo + (h - (i : ℚ)) * (hi - lo)

/-- The percentile `np.nanpercentile(flat, q)` with the default linear
interpolation, over the finite entries (every `ℚ` entry is finite):
sort, then interpolate at rank `h = q*(n-1)/100`. -/
def percentile (l : List ℚ) (q : ℚ) : ℚ :=
  let s := l.insertionSort (· ≤ ·)
  if s.length = 0 then 0
  else interpAt s (q * ((s.length : ℚ) - 1) / 100)

/-- The symmetric color scale, `_heatmap.py` lines 74-77:
`vmin = nanpercentile(values, 1)`, `vmax = nanpercentile(values, 99)`,
passed to `imshow` as `vmin=min(vmin,-vmax)`, `vmax=max(-vmin,vmax)`. -/
structure ColorScale where
  low : ℚ
  high : ℚ
  deriving Repr, DecidableEq

/-- Color-scale estimation, lines 74-77. -/
def estimate (values : List (List ℚ)) : ColorScale :=
  let flat := values.flatten
  let vmin := percentile flat 1
  let vmax := percentile flat 99
  ⟨min vmin (-vmax), max (-vmin) vmax⟩

/-- The mean curve `fx = values.T.mean(0)` of line 95: the per-sample
mean across features. -/
def meanCurve (values : List (List ℚ)) : List ℚ :=
  values.map (fun row => row.sum / (row.length : ℚ))

/-- The maximum absolute value `np.abs(x).max()` over a list (0 for the
empty list; the code never takes it over an empty axis). -/
def maxAbs (l : List ℚ) : ℚ :=
  l.foldr (fun x m => max |x| m) 0

/-- The normalized mean curve `fx / np.abs(fx).max()` of line 96.  When
the maximum absolute value is zero the float division is 0/0 and every
entry of the plotted curve is NaN; that non-finite outcome is modelled as
`none`. -/
def normalizeByMaxAbs (l : List ℚ) : Option (List ℚ) :=
  if maxAbs l = 0 then none
  else some (l.map (fun x => x / maxAbs l))

/-- The importance bars of lines 100-104:
`(order_values / np.abs(order_values).max()) * values.shape[0] / 20`.
A zero maximum absolute score makes every bar NaN (modelled `none`). -/
def importanceBars (orderValues : List ℚ) (nSamples : Nat) : Option (List ℚ) :=
  if maxAbs orderValues = 0 then none
  else some (orderValues.map (fun v => v / maxAbs orderValues * (nSamples : ℚ) / 20))

/-- The prepared layout handed to the renderer (matrix, labels, scores,
color scale and the two overlays). -/
structure Layout where
  values : List (List ℚ)
  featureNames : List String
  orderValues : List ℚ
  scale : ColorScale
  meanCurveN : Option (List ℚ)
  bars : Option (List ℚ)
  deriving Repr, DecidableEq

/-- The data-preparation pipeline of `heatmap`, lines 42-104, in source
order: resolve `input_order` (lines 43-46: a strategy is applied with
`return_values=True`, an explicit sequence is used directly and binds no
`order_values`, anything else raises `Unsupported input_order`), resolve
`sample_order` (lines 47-50), reindex the labels, the matrix and the
scores (lines 52-54; line 54 reads the local `order_values`, which is
unbound when `input_order` was an explicit sequence), collapse
(lines 57-67), estimate the color scale (74-77) and compose the overlays
(95-96, 100-104). -/
def heatmapPrep (shapValues : List (List ℚ)) (featureNames : List String)
    (inputOrder sampleOrder : OrderingSpec) (maxDisplay : Int) :
    Except HeatmapError Layout := do
  let (inputPerm, orderValuesOpt) ←
    match inputOrder with
    | .strategy f => Except.ok ((f shapValues 1).1, some (f shapValues 1).2)
    | .explicitPerm p => Except.ok (p, (none : Option (List ℚ)))
    | .scalar _ => Except.error (.unsupportedOrderingSpec "input_order")
  let samplePerm ←
    match sampleOrder with
    | .strategy f => Except.ok (f shapValues 0).1
    | .explicitPerm p => Except.ok p
    | .scalar _ => Except.error (.unsupportedOrderingSpec "sample_order")
  let names ← npFancyIndex featureNames inputPerm
  let rows ← npFancyIndex shapValues samplePerm
  let values ← rows.mapM (fun row => npFancyIndex row inputPerm)
  let orderValues ←
    match orderValuesOpt with
    | none => Except.error HeatmapError.nameErrorOrderValues
    | some ov => npFancyIndex ov inputPerm
  let (values, names, orderValues) ← collapse values names orderValues maxDisplay
  let scale := estimate values
  let mc := normalizeByMaxAbs (meanCurve values)
  let bars := importanceBars orderValues values.length
  pure ⟨values, names, orderValues, scale, mc, bars⟩

theorem set_append_length {α : Type} (l1 : List α) (a b : α) :
    (l1 ++ [a]).set l1.length b = l1 ++ [b] := by
  induction l1 with
  | nil => rfl
  | cons x xs ih =>
      show x :: (xs ++ [a]).set xs.length b = x :: (xs ++ [b])
      rw [ih]

theorem set_take_append (row : List ℚ) (n : Nat) (v : ℚ) (h : n ≤ row.length) :
    (row.take n ++ [(0 : ℚ)]).set n v = row.take n ++ [v] := by
  have hl : (row.take n).length = n := by rw [List.length_take]; omega
  calc (row.take n ++ [(0 : ℚ)]).set n v
      = (row.take n ++ [(0 : ℚ)]).set (row.take n).length v := by rw [hl]
    _ = row.take n ++ [v] := set_append_length _ _ _

theorem collapse_of_lt (values : List (List ℚ)) (names : List String) (scores : List ℚ)
    (md : Int) (h1 : 1 ≤ md) (h2 : md < (numCols values : Int))
    (hrow : ∀ row ∈ values, row.length = numCols values)
    (hn : names.length = numCols values) (hs : scores.length = numCols values) :
    collapse values names scores md = Except.ok
      (values.map (fun row => row.take (md.toNat - 1) ++ [(row.drop (md.toNat - 1)).sum]),
        names.take (md.toNat - 1) ++
          [toString ((numCols values : Int) - md + 1) ++ " other features"],
        scores.take (md.toNat - 1) ++ [(scores.drop (md.toNat - 1)).sum]) := by
  have hkm : (md.toNat : Int) = md := Int.toNat_of_nonneg (by omega)
  have hk1 : 1 ≤ md.toNat := by omega
  have hkm' : md.toNat < numCols values := by omega
  have ht : pyStopLen md.toNat (md - 1) = md.toNat - 1 := by
    unfold pyStopLen; rw [if_neg (by omega)]; omega
  have hsrcW : pyStopLen (numCols values) (md - 1) = md.toNat - 1 := by
    unfold pyStopLen; rw [if_neg (by omega)]; omega
  have hidx : npResolveIndex md.toNat (md - 1) = Except.ok (md.toNat - 1) := by
    simp only [npResolveIndex]
    split_ifs with hA hB hB <;> first
      | (exfalso; omega)
      | (congr 1; omega)
  have htr : pySliceTo names md = names.take md.toNat := by
    unfold pySliceTo pyStopLen
    rw [if_neg (by omega)]
    congr 1; omega
  have hemp : (names.take md.toNat).isEmpty = false := by
    cases hq : names.take md.toNat with
    | nil =>
        exfalso
        rw [List.take_eq_nil_iff] at hq
        rcases hq with h | h <;>
          first
            | omega
            | (rw [h] at hn; simp at hn; omega)
    | cons a l => rfl
  have hdl : (names.take md.toNat).dropLast = names.take (md.toNat - 1) := by
    rw [List.dropLast_eq_take, List.length_take, List.take_take]
    congr 1; omega
  simp only [collapse, ht, hsrcW, hidx, htr, hemp]
  rw [if_pos (by omega : (numCols values : Int) > md), if_neg (by omega : ¬ md < 0),
    if_neg (by omega : ¬ (md.toNat - 1 ≠ md.toNat - 1 ∧ md.toNat - 1 ≠ 1))]
  rw [if_neg Bool.false_ne_true]
  rw [hdl]
  refine congrArg Except.ok ?_
  refine congrArg₂ Prod.mk ?_ (congrArg₂ Prod.mk rfl ?_)
  · refine List.map_congr_left fun row hr => ?_
    have hlen : row.length = numCols values := hrow row hr
    have hrep : md.toNat - (md.toNat - 1) = 1 := by omega
    have hfrom : pySliceFrom row (md - 1) = row.drop (md.toNat - 1) := by
      unfold pySliceFrom; rw [if_neg (by omega)]; congr 1; omega
    rw [hrep, hfrom, List.replicate_one]
    exact set_take_append row _ _ (by omega)
  · have hrep : md.toNat - (md.toNat - 1) = 1 := by omega
    have hfrom : pySliceFrom scores (md - 1) = scores.drop (md.toNat - 1) := by
      unfold pySliceFrom; rw [if_neg (by omega)]; congr 1; omega
    rw [hrep, hfrom, List.replicate_one]
    exact set_take_append scores _ _ (by omega)

/-- C9: for every matrix with `feature_count ≤ max_display`, collapsing is
a no-op: the output matrix, labels, and scores equal the inputs exactly
(`_heatmap.py` lines 57-67, guard `values.shape[1] > max_display`). -/
theorem collapse_noop (values : List (List ℚ)) (names : List String) (scores : List ℚ)
    (md : Int) (h : (numCols values : Int) ≤ md) :
    collapse values names scores md = Except.ok (values, names, scores) := by
  unfold collapse
  rw [if_neg (by omega)]

theorem collapse_noop_witness :
    collapse [[1, 2], [3, 4]] ["a", "b"] [5, 6] 10
      = Except.ok ([[1, 2], [3, 4]], ["a", "b"], [5, 6]) :=
  collapse_noop [[1, 2], [3, 4]] ["a", "b"] [5, 6] 10 (by decide)

/-- C5: for every matrix with `feature_count > max_display ≥ 1` (with one
label and one score per feature), collapsing keeps columns
`0..max_display-2` of the values, labels and scores unchanged, sets the
last column's value per sample to the exact sum of the values over
columns `max_display-1..end`, sets its score to the exact sum of those
scores, labels it `"<k> other features"` with
`k = feature_count - max_display + 1`, and yields exactly `max_display`
feature columns. -/
theorem collapse_exact (values : List (List ℚ)) (names : List String) (scores : List ℚ)
    (md : Int) (h1 : 1 ≤ md) (h2 : md < (numCols values : Int))
    (hrow : ∀ row ∈ values, row.length = numCols values)
    (hn : names.length = numCols values) (hs : scores.length = numCols values) :
    collapse values names scores md = Except.ok
      (values.map (fun row => row.take (md.toNat - 1) ++ [(row.drop (md.toNat - 1)).sum]),
        names.take (md.toNat - 1) ++
          [toString ((numCols values : Int) - md + 1) ++ " other features"],
        scores.take (md.toNat - 1) ++ [(scores.drop (md.toNat - 1)).sum]) ∧
    ∀ row' ∈ values.map (fun row => row.take (md.toNat - 1) ++ [(row.drop (md.toNat - 1)).sum]),
      row'.length = md.toNat := by
  refine ⟨collapse_of_lt values names scores md h1 h2 hrow hn hs, ?_⟩
  intro row' hr'
  rcases List.mem_map.1 hr' with ⟨row, hrow', rfl⟩
  have := hrow row hrow'
  simp only [List.length_append, List.length_take, List.length_cons, List.length_nil]
  omega

theorem collapse_exact_witness :
    collapse
        [[1, 2, 3, 4, 5, 6, 7, 8, 9, 10, 11, 12],
          [12, 11, 10, 9, 8, 7, 6, 5, 4, 3, 2, 1],
          [1, 1, 1, 1, 1, 1, 1, 1, 1, 1, 1, 1]]
        ["f1", "f2", "f3", "f4", "f5", "f6", "f7", "f8", "f9", "f10", "f11", "f12"]
        [12, 11, 10, 9, 8, 7, 6, 5, 4, 3, 2, 1] 5 = Except.ok
      ([[1, 2, 3, 4, 68], [12, 11, 10, 9, 36], [1, 1, 1, 1, 8]],
        ["f1", "f2", "f3", "f4", "8 other features"],
        [12, 11, 10, 9, 36]) ∧
    ∀ row' ∈ [[(1 : ℚ), 2, 3, 4, 68], [12, 11, 10, 9, 36], [1, 1, 1, 1, 8]],
      row'.length = 5 :=
  ⟨((collapse_exact
      [[1, 2, 3, 4, 5, 6, 7, 8, 9, 10, 11, 12],
        [12, 11, 10, 9, 8, 7, 6, 5, 4, 3, 2, 1],
        [1, 1, 1, 1, 1, 1, 1, 1, 1, 1, 1, 1]]
      ["f1", "f2", "f3", "f4", "f5", "f6", "f7", "f8", "f9", "f10", "f11", "f12"]
      [12, 11, 10, 9, 8, 7, 6, 5, 4, 3, 2, 1] 5
      (by decide) (by decide) (by decide) (by decide) (by decide)).1).trans
      (by norm_num [numCols, (by decide : Int.toNat 5 = 5)]; rfl),
    by decide⟩

/-- C10: for every matrix (with labels and scores parallel to the feature
axis) and every `max_display ≥ 1`, collapsing preserves each per-sample
row total and the total of the scores: the per-row sums of the collapsed
matrix equal the per-row sums of the input and the collapsed scores sum
to the input scores' sum. -/
theorem collapse_preserves_sums (values : List (List ℚ)) (names : List String) (scores : List ℚ)
    (md : Int) (h1 : 1 ≤ md)
    (hrow : ∀ row ∈ values, row.length = numCols values)
    (hn : names.length = numCols values) (hs : scores.length = numCols values) :
    ∃ v n s, collapse values names scores md = Except.ok (v, n, s) ∧
      v.map List.sum = values.map List.sum ∧ s.sum = scores.sum := by
  rcases le_or_lt (numCols values : Int) md with hle | hlt
  · refine ⟨values, names, scores, ?_, rfl, rfl⟩
    unfold collapse
    rw [if_neg (by omega)]
  · refine ⟨_, _, _, collapse_of_lt values names scores md h1 hlt hrow hn hs, ?_, ?_⟩
    · rw [List.map_map]
      refine List.map_congr_left fun row hr => ?_
      simp only [Function.comp_apply, List.sum_append, List.sum_cons, List.sum_nil, add_zero]
      exact row.sum_take_add_sum_drop _
    · simp only [List.sum_append, List.sum_cons, List.sum_nil, add_zero]
      exact scores.sum_take_add_sum_drop _

theorem collapse_preserves_sums_witness :
    ∃ v n s, collapse [[1, 2, 3], [4, 5, 6]] ["a", "b", "c"] [7, 8, 9] 2
        = Except.ok (v, n, s) ∧
      v.map List.sum = [[(1 : ℚ), 2, 3], [4, 5, 6]].map List.sum ∧
      s.sum = [(7 : ℚ), 8, 9].sum :=
  collapse_preserves_sums [[1, 2, 3], [4, 5, 6]] ["a", "b", "c"] [7, 8, 9] 2
    (by decide) (by decide) (by decide) (by decide)

/-- C7: an ordering spec that is neither a recognized strategy nor a sized
sequence (a bare scalar) makes the pipeline fail with the
`Unsupported input_order` / `Unsupported sample_order` exception naming
the offending axis, for every matrix and every downstream argument: the
whole pipeline's value is that error (lines 43-50 run before the
reindexing of lines 52-54, so no reindexing occurs). -/
theorem unsupported_spec_rejected (values : List (List ℚ)) (names : List String)
    (so : OrderingSpec) (md : Int) (q : ℚ) :
    heatmapPrep values names (.scalar q) so md
        = Except.error (.unsupportedOrderingSpec "input_order") ∧
    ∀ f, heatmapPrep values names (.strategy f) (.scalar q) md
        = Except.error (.unsupportedOrderingSpec "sample_order") :=
  ⟨rfl, fun _ => rfl⟩

/-- C1 (code bug): an explicit feature-ordering permutation of the correct
length does not complete the pipeline: the code binds `order_values` only
in the strategy branch, so line 54
(`order_values = order_values[input_order]`) raises `UnboundLocalError`
for every explicit `input_order`; shown here on a 1-sample, 1-feature
matrix with the identity permutation on both axes. -/
theorem explicit_input_order_name_error :
    heatmapPrep [[(1 : ℚ)]] ["a"] (.explicitPerm [0]) (.explicitPerm [0]) 10
      = Except.error .nameErrorOrderValues := rfl

theorem maxAbs_cons (x : ℚ) (l : List ℚ) : maxAbs (x :: l) = max |x| (maxAbs l) := rfl

theorem maxAbs_nonneg (l : List ℚ) : 0 ≤ maxAbs l := by
  induction l with
  | nil => exact le_refl 0
  | cons x xs ih => exact le_trans ih (by rw [maxAbs_cons]; exact le_max_right _ _)

theorem abs_le_maxAbs (l : List ℚ) (x : ℚ) (hx : x ∈ l) : |x| ≤ maxAbs l := by
  induction l with
  | nil => cases hx
  | cons y ys ih =>
      rw [maxAbs_cons]
      rcases List.mem_cons.1 hx with rfl | h
      · exact le_max_left _ _
      · exact le_trans (ih h) (le_max_right _ _)

theorem maxAbs_of_all_zero (l : List ℚ) (h : ∀ x ∈ l, x = 0) : maxAbs l = 0 := by
  induction l with
  | nil => rfl
  | cons x xs ih =>
      rw [maxAbs_cons, h x (List.mem_cons_self x xs),
        ih fun y hy => h y (List.mem_cons_of_mem x hy)]
      simp

theorem getD_of_all_zero (s : List ℚ) (i : Nat) (h : ∀ x ∈ s, x = 0) :
    s.getD i 0 = 0 := by
  rcases lt_or_ge i s.length with hi | hi
  · rw [List.getD_eq_getElem s 0 hi]
    exact h _ (List.getElem_mem hi)
  · exact List.getD_eq_default s 0 hi

theorem percentile_all_zero (l : List ℚ) (q : ℚ) (h : ∀ x ∈ l, x = 0) :
    percentile l q = 0 := by
  have hs : ∀ x ∈ l.insertionSort (· ≤ ·), x = 0 := fun x hx =>
    h x ((List.perm_insertionSort _ l).mem_iff.1 hx)
  simp only [percentile, interpAt]
  split_ifs with h0
  · rfl
  · rw [getD_of_all_zero _ _ hs, getD_of_all_zero _ _ hs]
    ring

theorem estimate_all_zero (values : List (List ℚ))
    (h : ∀ row ∈ values, ∀ x ∈ row, x = 0) : estimate values = ⟨0, 0⟩ := by
  have hflat : ∀ x ∈ values.flatten, x = 0 := by
    intro x hx
    rcases List.mem_flatten.1 hx with ⟨row, hrow, hxr⟩
    exact h row hrow x hxr
  simp only [estimate, percentile_all_zero _ _ hflat]
  norm_num

/-- C2 (counterexample): on the all-zero 2×2 matrix the color scale the
code computes is `{0, 0}` (both percentiles are 0, and
`min(vmin,-vmax) = max(-vmin,vmax) = 0`), not the claimed fallback
`{-1, 1}`: no such fallback exists in the code. -/
theorem all_zero_scale_not_fallback :
    estimate [[0, 0], [0, 0]] ≠ ColorScale.mk (-1) 1 := by
  rw [estimate_all_zero [[0, 0], [0, 0]] (by simp)]
  intro hcontra
  rw [ColorScale.mk.injEq] at hcontra
  exact absurd hcontra.1 (by norm_num)

/-- C2 (amended): on an all-zero matrix the color scale is `{0, 0}` (there
is no `{-1, 1}` fallback), the raw mean curve is all zeros, and its
normalization divides by a zero maximum, so the plotted curve is
non-finite (modelled `none`) rather than all zeros; no exception is
raised.  The hypothesis `hne` keeps the statement on the code's actual
domain (at least one entry, where `nanpercentile` is defined). -/
theorem all_zero_degenerate (values : List (List ℚ))
    (hz : ∀ row ∈ values, ∀ x ∈ row, x = 0) (hne : values.flatten ≠ []) :
    estimate values = ⟨0, 0⟩ ∧
    meanCurve values = values.map (fun _ => 0) ∧
    normalizeByMaxAbs (meanCurve values) = none := by
  have hcurve : meanCurve values = values.map (fun _ => 0) := by
    refine List.map_congr_left fun row hr => ?_
    rw [List.sum_eq_zero (hz row hr), zero_div]
  refine ⟨estimate_all_zero values hz, hcurve, ?_⟩
  have hzero : ∀ x ∈ meanCurve values, x = 0 := by
    rw [hcurve]
    intro x hx
    rcases List.mem_map.1 hx with ⟨row, _, rfl⟩
    rfl
  rw [normalizeByMaxAbs, if_pos (maxAbs_of_all_zero _ hzero)]

theorem all_zero_degenerate_witness :
    estimate [[(0 : ℚ)], [0]] = ⟨0, 0⟩ ∧
    meanCurve [[(0 : ℚ)], [0]] = [[(0 : ℚ)], [0]].map (fun _ => 0) ∧
    normalizeByMaxAbs (meanCurve [[(0 : ℚ)], [0]]) = none :=
  all_zero_degenerate [[0], [0]] (by simp) (by simp)

/-- C3 (counterexample): a length-1 explicit sample ordering on a
2-sample matrix is not rejected: the pipeline succeeds (producing the
reshaped 1-sample layout) instead of failing with a `ShapeMismatch`, and
the fancy-indexing reindex of the rows by `[0]` simply selects row 0. -/
theorem short_sample_perm_accepted :
    (heatmapPrep [[(1 : ℚ)], [2]] ["a"]
        (OrderingSpec.strategy fun _ _ => ([0], [1]))
        (OrderingSpec.explicitPerm [0]) 10).isOk = true ∧
    npFancyIndex [[(1 : ℚ)], [2]] [0] = Except.ok [[1]] :=
  ⟨rfl, rfl⟩

/-- C3 (amended): the code performs no length validation on explicit
permutations: any index sequence whose entries are in bounds is accepted
by the numpy fancy-indexing reindex (lines 52-54), whatever its length,
and selects exactly the indexed positions; there is no `ShapeMismatch`
signal, and only an out-of-bounds entry raises a plain `IndexError`. -/
theorem fancy_index_in_bounds {α : Type} [Inhabited α] (l : List α) (idx : List Nat)
    (h : ∀ i ∈ idx, i < l.length) :
    npFancyIndex l idx = Except.ok (idx.map fun i => l.getD i default) := by
  induction idx with
  | nil => rfl
  | cons i is ih =>
      have hi : i < l.length := h i (List.mem_cons_self i is)
      have htl := ih fun j hj => h j (List.mem_cons_of_mem i hj)
      simp only [npFancyIndex] at htl ⊢
      rw [List.mapM_cons, dif_pos hi, htl, List.map_cons,
        List.getD_eq_getElem l default hi]
      rfl

theorem fancy_index_in_bounds_witness :
    npFancyIndex ([10, 20] : List ℚ) [0, 0, 1]
      = Except.ok ([0, 0, 1].map fun i => ([10, 20] : List ℚ).getD i default) :=
  fancy_index_in_bounds [10, 20] [0, 0, 1] (by decide)

/-- C4 (counterexample): the importance-bar values are scaled by
`sample_count/20` after normalization (line 101), so with 21 samples and
a single feature of score 1 the bar value is `21/20 > 1`: bar values do
not lie in `[-1, 1]`. -/
theorem importance_bars_exceed_unit :
    importanceBars [1] 21 = some [21 / 20] ∧ ¬ ((21 : ℚ) / 20 ≤ 1) := by
  constructor
  · rw [importanceBars, if_neg (by rw [maxAbs_cons]; norm_num [maxAbs])]
    rw [maxAbs_cons]
    norm_num [maxAbs]
  · norm_num

/-- C4 (amended): for non-degenerate inputs (nonzero maximum absolute
values, the case where the overlays are finite) every element of the
normalized mean curve lies in `[-1, 1]`, while every element of the
importance bars lies in `[-n/20, n/20]` where `n` is the sample count:
only the pre-scaling normalized scores are bounded by 1, and the bars
exceed `[-1, 1]` once more than 20 samples are drawn. -/
theorem overlay_normalization_bounds (fx ov : List ℚ) (n : Nat) (mc bars : List ℚ)
    (hmc : normalizeByMaxAbs fx = some mc) (hbars : importanceBars ov n = some bars) :
    (∀ x ∈ mc, -1 ≤ x ∧ x ≤ 1) ∧
    (∀ x ∈ bars, -((n : ℚ) / 20) ≤ x ∧ x ≤ (n : ℚ) / 20) := by
  constructor
  · intro x hx
    have hfx : ¬ maxAbs fx = 0 := by
      intro h0
      rw [normalizeByMaxAbs, if_pos h0] at hmc
      exact Option.noConfusion hmc
    have hpos : 0 < maxAbs fx := lt_of_le_of_ne (maxAbs_nonneg fx) (Ne.symm hfx)
    rw [normalizeByMaxAbs, if_neg hfx, Option.some.injEq] at hmc
    rw [← hmc] at hx
    rcases List.mem_map.1 hx with ⟨y, hy, rfl⟩
    have h1 : |y| ≤ maxAbs fx := abs_le_maxAbs fx y hy
    have : |y / maxAbs fx| ≤ 1 := by
      rw [abs_div, abs_of_pos hpos, div_le_one hpos]
      exact h1
    exact abs_le.1 this
  · intro x hx
    have hov : ¬ maxAbs ov = 0 := by
      intro h0
      rw [importanceBars, if_pos h0] at hbars
      exact Option.noConfusion hbars
    have hpos : 0 < maxAbs ov := lt_of_le_of_ne (maxAbs_nonneg ov) (Ne.symm hov)
    rw [importanceBars, if_neg hov, Option.some.injEq] at hbars
    rw [← hbars] at hx
    rcases List.mem_map.1 hx with ⟨v, hv, rfl⟩
    have h1 : |v / maxAbs ov| ≤ 1 := by
      rw [abs_div, abs_of_pos hpos, div_le_one hpos]
      exact abs_le_maxAbs ov v hv
    have h2 : |v / maxAbs ov * (n : ℚ) / 20| ≤ (n : ℚ) / 20 := by
      rw [abs_div, abs_mul]
      rw [show |(20 : ℚ)| = 20 by norm_num, show |(n : ℚ)| = (n : ℚ) by
        exact abs_of_nonneg (by positivity)]
      have hn0 : (0 : ℚ) ≤ (n : ℚ) := by positivity
      calc |v / maxAbs ov| * (n : ℚ) / 20 ≤ 1 * (n : ℚ) / 20 := by gcongr
        _ = (n : ℚ) / 20 := by ring
    exact abs_le.1 h2

theorem overlay_normalization_bounds_witness :
    (∀ x ∈ [(1 : ℚ)], -1 ≤ x ∧ x ≤ 1) ∧
    (∀ x ∈ [(1 : ℚ) / 2], -((((10 : Nat)) : ℚ) / 20) ≤ x ∧ x ≤ (((10 : Nat)) : ℚ) / 20) :=
  overlay_normalization_bounds [(1 : ℚ) / 2] [2] 10 [1] [1 / 2]
    (by rw [normalizeByMaxAbs, if_neg (by rw [maxAbs_cons]; norm_num [maxAbs])]
        rw [maxAbs_cons]
        norm_num [maxAbs]
        try rw [abs_of_pos (by norm_num : (0 : ℚ) < 1 / 2)]
        try norm_num)
    (by rw [importanceBars, if_neg (by rw [maxAbs_cons]; norm_num [maxAbs])]
        rw [maxAbs_cons]
        norm_num [maxAbs]
        try rw [abs_of_pos (by norm_num : (0 : ℚ) < 2)]
        try norm_num)

/-- C8 (counterexample): with `max_display = 0` and a 4-feature matrix the
pipeline fails, but with the numpy broadcast error of the slice
assignment `new_values[:, :-1] = values[:, :-1]` (shape `(1,3)` into
`(1,0)`), not with a dedicated `InvalidDisplayCount` signal, which does
not exist in the code. -/
theorem max_display_zero_numpy_error :
    heatmapPrep [[(1 : ℚ), 2, 3, 4]] ["a", "b", "c", "d"]
        (OrderingSpec.strategy fun _ _ => ([0, 1, 2, 3], [1, 1, 1, 1]))
        (OrderingSpec.strategy fun _ _ => ([0], [])) 0
      = Except.error HeatmapError.broadcastError ∧
    HeatmapError.broadcastError ≠ HeatmapError.invalidDisplayCount :=
  ⟨rfl, by decide⟩

/-- C8 (amended): `max_display < 1` is never explicitly validated; with at
least one feature the collapse step fails with one of numpy's own errors
(negative-dimension, broadcast, or index error), never with an
`InvalidDisplayCount`, so no layout with `max_display < 1` is produced
but the claimed dedicated signal does not exist. -/
theorem collapse_invalid_display_fails (values : List (List ℚ)) (names : List String)
    (scores : List ℚ) (md : Int) (hmd : md < 1) (hm : 1 ≤ numCols values) :
    ∃ e, collapse values names scores md = Except.error e ∧
      e ≠ HeatmapError.invalidDisplayCount := by
  simp only [collapse]
  rw [if_pos (by omega : (numCols values : Int) > md)]
  by_cases hneg : md < 0
  · rw [if_pos hneg]
    exact ⟨_, rfl, by decide⟩
  · have h0 : md = 0 := by omega
    subst h0
    rw [if_neg hneg]
    have hT : pyStopLen (Int.toNat 0) (0 - 1) = 0 := rfl
    have hS : pyStopLen (numCols values) (0 - 1) = numCols values - 1 := by
      unfold pyStopLen
      rw [if_pos (by omega)]
      omega
    rw [hT, hS]
    rcases Nat.lt_or_ge (numCols values) 3 with h3 | h3
    · rw [if_neg (by omega)]
      have hR : npResolveIndex (Int.toNat 0) (0 - 1) = Except.error .indexError := rfl
      rw [hR]
      exact ⟨_, rfl, by decide⟩
    · rw [if_pos (by constructor <;> omega)]
      exact ⟨_, rfl, by decide⟩

theorem collapse_invalid_display_fails_witness :
    ∃ e, collapse [[(1 : ℚ)]] ["a"] [1] 0 = Except.error e ∧
      e ≠ HeatmapError.invalidDisplayCount :=
  collapse_invalid_display_fails [[1]] ["a"] [1] 0 (by decide) (by decide)

theorem sorted_getD_mono (s : List ℚ) (hs : s.Sorted (· ≤ ·)) (a b : Nat)
    (hab : a ≤ b) (hb : b < s.length) : s.getD a 0 ≤ s.getD b 0 := by
  have ha : a < s.length := lt_of_le_of_lt hab hb
  rw [List.getD_eq_getElem s 0 ha, List.getD_eq_getElem s 0 hb]
  have h2 : s.get ⟨a, ha⟩ ≤ s.get ⟨b, hb⟩ := hs.rel_get_of_le hab
  simpa using h2

theorem getD_le_succ (s : List ℚ) (hs : s.Sorted (· ≤ ·)) (i : Nat) (hi : i < s.length) :
    s.getD i 0 ≤ s.getD (i + 1) (s.getD i 0) := by
  rcases lt_or_ge (i + 1) s.length with h' | h'
  · rw [show s.getD (i + 1) (s.getD i 0) = s.getD (i + 1) 0 from by
      rw [List.getD_eq_getElem s _ h', List.getD_eq_getElem s 0 h']]
    exact sorted_getD_mono s hs i (i + 1) (Nat.le_succ i) h'
  · rw [List.getD_eq_default s _ h']

theorem cast_toNat_floor (h : ℚ) (h0 : 0 ≤ h) : ((⌊h⌋.toNat : ℚ)) = ((⌊h⌋ : ℤ) : ℚ) := by
  exact_mod_cast congrArg (fun z : ℤ => (z : ℚ)) (Int.toNat_of_nonneg (Int.floor_nonneg.2 h0))

theorem interpAt_bounds (s : List ℚ) (hs : s.Sorted (· ≤ ·)) (h : ℚ) (h0 : 0 ≤ h)
    (hlt : ⌊h⌋.toNat < s.length) :
    s.getD ⌊h⌋.toNat 0 ≤ interpAt s h ∧
    interpAt s h ≤ s.getD (⌊h⌋.toNat + 1) (s.getD ⌊h⌋.toNat 0) := by
  have hcast := cast_toNat_floor h h0
  have hfr0 : 0 ≤ h - (⌊h⌋.toNat : ℚ) := by
    rw [hcast]
    linarith [Int.floor_le h]
  have hfr1 : h - (⌊h⌋.toNat : ℚ) ≤ 1 := by
    rw [hcast]
    linarith [Int.lt_floor_add_one h]
  have hlohi := getD_le_succ s hs ⌊h⌋.toNat hlt
  simp only [interpAt]
  constructor
  · have := mul_nonneg hfr0 (sub_nonneg.2 hlohi)
    linarith
  · have := mul_le_mul_of_nonneg_right hfr1 (sub_nonneg.2 hlohi)
    linarith

theorem interpAt_mono (s : List ℚ) (hs : s.Sorted (· ≤ ·)) (h₁ h₂ : ℚ)
    (h0 : 0 ≤ h₁) (hle : h₁ ≤ h₂) (hub : h₂ ≤ (s.length : ℚ) - 1) :
    interpAt s h₁ ≤ interpAt s h₂ := by
  have h0' : 0 ≤ h₂ := le_trans h0 hle
  have hi2 : ⌊h₂⌋.toNat < s.length := by
    have hq : ((⌊h₂⌋ : ℤ) : ℚ) ≤ (s.length : ℚ) - 1 := le_trans (Int.floor_le h₂) hub
    have hz : ⌊h₂⌋ ≤ (s.length : ℤ) - 1 := by exact_mod_cast hq
    have hfz : (0 : ℤ) ≤ ⌊h₂⌋ := Int.floor_nonneg.2 h0'
    omega
  have hi1 : ⌊h₁⌋.toNat ≤ ⌊h₂⌋.toNat := Int.toNat_le_toNat (Int.floor_mono hle)
  rcases eq_or_lt_of_le hi1 with heq | hlt2
  · have hi1n : ⌊h₁⌋.toNat < s.length := heq ▸ hi2
    have hlohi := getD_le_succ s hs ⌊h₁⌋.toNat hi1n
    simp only [interpAt, ← heq]
    have hmul := mul_le_mul_of_nonneg_right
      (show h₁ - ((⌊h₁⌋.toNat : ℚ)) ≤ h₂ - ((⌊h₁⌋.toNat : ℚ)) by linarith)
      (sub_nonneg.2 hlohi)
    linarith
  · have hi1n : ⌊h₁⌋.toNat < s.length := lt_trans hlt2 hi2
    have hi1p : ⌊h₁⌋.toNat + 1 < s.length := by omega
    have hb1 := interpAt_bounds s hs h₁ h0 hi1n
    have hb2 := interpAt_bounds s hs h₂ h0' hi2
    calc interpAt s h₁ ≤ s.getD (⌊h₁⌋.toNat + 1) (s.getD ⌊h₁⌋.toNat 0) := hb1.2
      _ = s.getD (⌊h₁⌋.toNat + 1) 0 := by
          rw [List.getD_eq_getElem s _ hi1p, List.getD_eq_getElem s 0 hi1p]
      _ ≤ s.getD ⌊h₂⌋.toNat 0 := sorted_getD_mono s hs _ _ (by omega) hi2
      _ ≤ interpAt s h₂ := hb2.1

theorem percentile_mono (l : List ℚ) (hl : l ≠ []) (q₁ q₂ : ℚ)
    (h0 : 0 ≤ q₁) (h12 : q₁ ≤ q₂) (h100 : q₂ ≤ 100) :
    percentile l q₁ ≤ percentile l q₂ := by
  have hne : (l.insertionSort (· ≤ ·)).length ≠ 0 := by
    rw [(List.perm_insertionSort _ l).length_eq]
    exact fun hc => hl (List.length_eq_zero.1 hc)
  have hn1 : 1 ≤ (l.insertionSort (· ≤ ·)).length := Nat.one_le_iff_ne_zero.2 hne
  simp only [percentile]
  rw [if_neg hne, if_neg hne]
  have hs : (l.insertionSort (· ≤ ·)).Sorted (· ≤ ·) := List.sorted_insertionSort _ l
  have hnn : (0 : ℚ) ≤ ((l.insertionSort (· ≤ ·)).length : ℚ) - 1 := by
    have : (1 : ℚ) ≤ ((l.insertionSort (· ≤ ·)).length : ℚ) := by exact_mod_cast hn1
    linarith
  apply interpAt_mono _ hs
  · exact div_nonneg (mul_nonneg h0 hnn) (by norm_num)
  · have := mul_le_mul_of_nonneg_right h12 hnn
    linarith
  · have := mul_le_mul_of_nonneg_right h100 hnn
    linarith

/-- C6: for every matrix with at least one entry, the color scale is
symmetric about zero: with `p1` and `p99` the 1st and 99th percentiles of
the (finite) entries, the scale equals `{-bound, +bound}` with
`bound = max(|p1|, |p99|)`, and in particular `high = -low` always
holds. -/
theorem estimate_symmetric (values : List (List ℚ)) (hne : values.flatten ≠ []) :
    estimate values =
      ⟨-(max |percentile values.flatten 1| |percentile values.flatten 99|),
        max |percentile values.flatten 1| |percentile values.flatten 99|⟩ ∧
    (estimate values).high = -(estimate values).low := by
  have hmono : percentile values.flatten 1 ≤ percentile values.flatten 99 :=
    percentile_mono values.flatten hne 1 99 (by norm_num) (by norm_num) (by norm_num)
  set p1 := percentile values.flatten 1 with hp1
  set p99 := percentile values.flatten 99 with hp99
  have hmax : max (-p1) p99 = max |p1| |p99| := by
    rcases le_total p1 0 with h1 | h1 <;> rcases le_total p99 0 with h2 | h2
    · rw [abs_of_nonpos h1, abs_of_nonpos h2,
        max_eq_left (by linarith : p99 ≤ -p1), max_eq_left (by linarith : -p99 ≤ -p1)]
    · rw [abs_of_nonpos h1, abs_of_nonneg h2]
    · have e1 : p1 = 0 := le_antisymm (by linarith) h1
      have e2 : p99 = 0 := le_antisymm h2 (by linarith)
      rw [e1, e2]
      simp
    · rw [abs_of_nonneg h1, abs_of_nonneg h2,
        max_eq_right (by linarith : -p1 ≤ p99), max_eq_right hmono]
  have hmin : min p1 (-p99) = -(max (-p1) p99) := by
    rw [show max (-p1) p99 = max (-p1) (-(-p99)) by rw [neg_neg], max_neg_neg, neg_neg]
  have hest : estimate values = ⟨min p1 (-p99), max (-p1) p99⟩ := rfl
  constructor
  · rw [hest, hmin, hmax]
  · rw [hest]
    show max (-p1) p99 = -(min p1 (-p99))
    rw [hmin, neg_neg]

theorem estimate_symmetric_witness :
    estimate [[(1 : ℚ), -3]] =
      ⟨-(max |percentile [[(1 : ℚ), -3]].flatten 1| |percentile [[(1 : ℚ), -3]].flatten 99|),
        max |percentile [[(1 : ℚ), -3]].flatten 1| |percentile [[(1 : ℚ), -3]].flatten 99|⟩ ∧
    (estimate [[(1 : ℚ), -3]]).high = -(estimate [[(1 : ℚ), -3]]).low :=
  estimate_symmetric [[(1 : ℚ), -3]] (by simp)

end Heatmap
